import Mathlib

/-!
Verification of the ignore-rule matching and file-selection engine of the
project_aggregator repository (src/project_aggregator/logic.py and main.py).

Paths relative to the scan root are represented by their lists of components
(the result of splitting the POSIX path string on the slash); `posixJoin`
recovers the path string.  The external `pathspec` dependency (gitwildmatch
compilation and matching) is not vendored under src/, so it is modelled below
from the spec's description of gitwildmatch semantics and the library's
documented behaviour; everything else is translated directly from the Python
source.
-/

/-- Python `str.strip` whitespace set (space, tab, newline, carriage return,
vertical tab, form feed). -/
def pyIsSpace (c : Char) : Bool :=
  c = ' ' || c = '\t' || c = '\n' || c = '\x0d' || c = '\x0b' || c = '\x0c'

/-- Strip leading and trailing whitespace from a character list. -/
def pyStripChars (cs : List Char) : List Char :=
  ((cs.dropWhile pyIsSpace).reverse.dropWhile pyIsSpace).reverse

/-- Python `str.strip()` on a string. -/
def pyStrip (s : String) : String :=
  String.mk (pyStripChars s.data)

/-- Lexicographic (code-point) order on character lists, as Python compares
strings.  `lexLEb x y = true` iff `x ≤ y` lexicographically. -/
def lexLEb : List Char → List Char → Bool
  | [], _ => true
  | _ :: _, [] => false
  | a :: as, b :: bs =>
    if a.toNat < b.toNat then true
    else if a.toNat = b.toNat then lexLEb as bs
    else false

/-- Lexicographic order on path strings (Python `str` comparison, which is
what `sorted` uses on POSIX `Path` objects in Python 3.12). -/
def strLE (a b : String) : Prop := lexLEb a.data b.data = true

instance : DecidableRel strLE := fun _ _ => inferInstanceAs (Decidable (_ = true))

theorem lexLEb_total (x y : List Char) : lexLEb x y = true ∨ lexLEb y x = true := by
  induction x generalizing y with
  | nil => left; rfl
  | cons c cs ih =>
    cases y with
    | nil => right; rfl
    | cons d ds =>
      rcases Nat.lt_trichotomy c.toNat d.toNat with h | h | h
      · left; simp [lexLEb, h]
      · rcases ih ds with h2 | h2
        · left; simp [lexLEb, h, h2]
        · right; simp [lexLEb, h.symm, h2]
      · right; simp [lexLEb, h]

theorem lexLEb_trans : ∀ x y z : List Char,
    lexLEb x y = true → lexLEb y z = true → lexLEb x z = true := by
  intro x
  induction x with
  | nil => intro y z _ _; rfl
  | cons a as ih =>
    intro y z h1 h2
    cases y with
    | nil => simp [lexLEb] at h1
    | cons b bs =>
      cases z with
      | nil => simp [lexLEb] at h2
      | cons c cs =>
        simp only [lexLEb] at h1 h2 ⊢
        split_ifs at h1 h2 ⊢ with hab habe hbc hbce hac hace
        all_goals first
          | rfl
          | omega
          | (exact ih bs cs h1 h2)

instance : IsTotal String strLE := ⟨fun a b => lexLEb_total a.data b.data⟩

instance : IsTrans String strLE := ⟨fun a b c => lexLEb_trans a.data b.data c.data⟩

/-- Glob matching of a single path component with fuel (`*` matches any
sequence of characters within the component, `?` a single character; other
characters match literally; character classes are not modelled — no pattern
in this repository's spec uses them).  The fuel is always sufficient when it
is at least `pattern.length + text.length + 1`. -/
def globMatchF : Nat → List Char → List Char → Bool
  | 0, _, _ => false
  | _ + 1, [], text => text.isEmpty
  | fuel + 1, '*' :: ps, [] => globMatchF fuel ps []
  | fuel + 1, '*' :: ps, c :: cs =>
    globMatchF fuel ps (c :: cs) || globMatchF fuel ('*' :: ps) cs
  | fuel + 1, '?' :: ps, _ :: cs => globMatchF fuel ps cs
  | _ + 1, '?' :: _, [] => false
  | fuel + 1, p :: ps, c :: cs => p = c && globMatchF fuel ps cs
  | _ + 1, _ :: _, [] => false

/-- Glob matching of one path component against one glob part. -/
def globMatch (pat text : List Char) : Bool :=
  globMatchF (pat.length + text.length + 1) pat text

/-- One compiled gitwildmatch rule: the raw pattern string (as kept by
pathspec in its `pattern` attribute), the negation flag (`!` prefix), the
directory-only flag (trailing `/`), whether the pattern is anchored (it
contained a non-trailing slash), and its slash-separated glob parts. -/
structure GitPattern where
  raw : String
  negated : Bool
  dirOnly : Bool
  anchored : Bool
  parts : List String
deriving DecidableEq, Repr

/-- Outcome of pattern compilation: pathspec raises `GitWildMatchPatternError`
on invalid patterns, modelled as the `err` constructor. -/
inductive ParseOutcome (α : Type) where
  | ok (val : α)
  | err (msg : String)
deriving DecidableEq

/-- Split a character list on `/`, like Python `str.split('/')`. -/
def splitSlash : List Char → List (List Char)
  | [] => [[]]
  | '/' :: cs => [] :: splitSlash cs
  | c :: cs =>
    match splitSlash cs with
    | [] => [[c]]
    | g :: gs => (c :: g) :: gs

/-- Modelled from the spec: compilation of one gitwildmatch pattern line by
the external pathspec dependency (absent from src/).  Blank lines, `#`
comments and a lone `/` yield no rule; a leading `!` negates; a leading `/`
anchors to the root and a non-trailing inner `/` also anchors; a trailing `/`
restricts the rule to directories; a pattern that reduces to no segments
(such as a lone `!`) is invalid and raises `GitWildMatchPatternError`
(`err`).  `**` cross-directory wildcards are not modelled (no claim uses
them). -/
def parseLine (line : String) : ParseOutcome (Option GitPattern) :=
  let s := pyStripChars line.data
  if s = [] then .ok none
  else if s.head? = some '#' then .ok none
  else if s = ['/'] then .ok none
  else
    let neg := s.head? = some '!'
    let body := if neg then s.tail else s
    let segs0 := splitSlash body
    let pair :=
      match segs0 with
      | [] :: rest => (rest, false)
      | _ =>
        if segs0.length = 1 ∨ (segs0.length = 2 ∧ segs0.getLast? = some []) then
          (segs0, true)
        else (segs0, false)
    let segs1 := pair.1
    let unanchored := pair.2
    let pair2 :=
      if 1 < segs1.length ∧ segs1.getLast? = some [] then (segs1.dropLast, true)
      else (segs1, false)
    let segs2 := pair2.1
    let dirOnly := pair2.2
    if segs2 = [] ∨ segs2.any (· = []) then .err (String.mk s)
    else .ok (some ⟨String.mk s, neg, dirOnly, !unanchored, segs2.map String.mk⟩)

/-- Modelled from the spec: `pathspec.PathSpec.from_lines('gitwildmatch', …)`.
Compiles lines in order, keeping the rules of non-null lines; the first
invalid line raises (propagates `err`), as pathspec does. -/
def fromLines : List String → ParseOutcome (List GitPattern)
  | [] => .ok []
  | l :: ls =>
    match parseLine l with
    | .err m => .err m
    | .ok none => fromLines ls
    | .ok (some p) =>
      match fromLines ls with
      | .err m => .err m
      | .ok ps => .ok (p :: ps)

/-- Modelled from the spec: whether one compiled rule matches a file path
given as its list of components (pathspec `match_file` semantics for a single
pattern).  An unanchored single-part rule matches if some component matches
its glob — for a directory-only rule that component must not be the last one;
an anchored rule must match the leading components, with at least one more
component after them when it is directory-only. -/
def patMatches (p : GitPattern) (cs : List String) : Bool :=
  if p.parts = [] then false
  else if p.anchored then
    (if p.dirOnly then p.parts.length < cs.length else p.parts.length ≤ cs.length) &&
      ((p.parts.zip cs).all fun gc => globMatch gc.1.data gc.2.data)
  else
    match p.parts with
    | [g] =>
      (List.range cs.length).any fun i =>
        globMatch g.data ((cs.getD i "").data) &&
          (!p.dirOnly || decide (i + 1 < cs.length))
    | _ => false

/-- Modelled from the spec: `PathSpec.match_file` over an ordered rule list —
rules are evaluated in order and the last matching rule decides, a negated
rule setting the verdict back to "not ignored". -/
def matchFile (spec : List GitPattern) (cs : List String) : Bool :=
  spec.foldl (fun verdict p => if patMatches p cs then !p.negated else verdict) false

/-- The compiled form of the rule `*.log`. -/
def starLogPat : GitPattern := ⟨"*.log", false, false, false, ["*.log"]⟩

/-- The compiled form of the rule `!keep.log`. -/
def notKeepLogPat : GitPattern := ⟨"!keep.log", true, false, false, ["keep.log"]⟩

/-- C1: for every pattern set whose final rules are, in order, `*.log` and
`!keep.log` (any rules, such as the implicit `.git/` rule, may precede them),
the Matcher's verdict follows last-matching-rule-wins with negation: the file
path `keep.log` is not ignored and the file path `other.log` is ignored.  The
first conjunct checks that the two rule strings compile to the stated
patterns. -/
theorem C1_negation_precedence :
    fromLines ["*.log", "!keep.log"] = .ok [starLogPat, notKeepLogPat] ∧
    ∀ pre : List GitPattern,
      matchFile (pre ++ [starLogPat, notKeepLogPat]) ["keep.log"] = false ∧
      matchFile (pre ++ [starLogPat, notKeepLogPat]) ["other.log"] = true := by
  constructor
  · decide
  · intro pre
    unfold matchFile
    rw [List.foldl_append, List.foldl_append]
    constructor
    · generalize List.foldl _ false pre = b
      cases b <;> decide
    · generalize List.foldl _ false pre = b
      cases b <;> decide

/-- A filesystem entry under the scan root: a file or a directory with its
children.  A scan root is a `List Entry` (the root directory's children). -/
inductive Entry where
  | file (nm : String)
  | dir (nm : String) (children : List Entry)

/-- The name of an entry (`Path.name`). -/
def entryName : Entry → String
  | .file n => n
  | .dir n _ => n

/-- `Path.is_file()` for an entry of the modelled tree. -/
def entryIsFile : Entry → Bool
  | .file _ => true
  | .dir _ _ => false

mutual
/-- Component paths of all files in the subtree of one entry, relative to the
root (`Path.rglob('*')` restricted to files). -/
def allFilesE (pre : List String) : Entry → List (List String)
  | .file n => [pre ++ [n]]
  | .dir n cs => allFilesL (pre ++ [n]) cs
/-- Component paths of all files under a list of entries. -/
def allFilesL (pre : List String) : List Entry → List (List String)
  | [] => []
  | e :: es => allFilesE pre e ++ allFilesL pre es
end

/-- `Path.as_posix()`: join path components with slashes. -/
def posixJoin : List String → String
  | [] => ""
  | [c] => c
  | c :: cs => c ++ "/" ++ posixJoin cs

/-- A well-formed filesystem name: non-empty and slash-free (as real
filesystem entry names are). -/
def okName (c : String) : Bool := !c.data.isEmpty && c.data.all fun ch => ch != '/'

/-- A well-formed root: every file path consists of well-formed names. -/
def WFfs (root : List Entry) : Prop :=
  ∀ cs ∈ allFilesL [] root, ∀ c ∈ cs, okName c = true

instance (root : List Entry) : Decidable (WFfs root) := by
  unfold WFfs; infer_instance

/-- `scan_and_filter_files` (logic.py 141-182): every file under the root
whose relative path the combined spec does not ignore, collected into a set
and returned as a sorted list of POSIX path strings.  `List.insertionSort`
models Python's stable `sorted`, and `dedup` the `set` semantics. -/
def scan_and_filter_files (spec : List GitPattern) (root : List Entry) : List String :=
  let included := ((allFilesL [] root).filter fun cs => !matchFile spec cs).map posixJoin
  List.insertionSort strLE included.dedup

/-- C5: for every root and pattern set, the Scanner's result is sorted in
lexicographic order on the relative path string and contains no duplicate
entries. -/
theorem C5_scanner_sorted_nodup (spec : List GitPattern) (root : List Entry) :
    List.Sorted strLE (scan_and_filter_files spec root) ∧
    (scan_and_filter_files spec root).Nodup := by
  constructor
  · exact List.sorted_insertionSort strLE _
  · exact (List.perm_insertionSort strLE _).symm.nodup (List.nodup_dedup _)

/-- Unpack membership in the Scanner's result: the string is the POSIX form
of some non-ignored file path of the tree. -/
theorem mem_scan_and_filter {spec : List GitPattern} {root : List Entry} {s : String}
    (h : s ∈ scan_and_filter_files spec root) :
    ∃ cs ∈ allFilesL [] root, matchFile spec cs = false ∧ posixJoin cs = s := by
  unfold scan_and_filter_files at h
  rw [List.mem_insertionSort, List.mem_dedup, List.mem_map] at h
  obtain ⟨cs, hcs, hjoin⟩ := h
  rw [List.mem_filter] at hcs
  exact ⟨cs, hcs.1, by simpa using hcs.2, hjoin⟩

/-- The sort key order used by `generate_tree` (logic.py line 100):
Python's `sorted(…, key=lambda p: (p.is_file(), p.name.lower()))`, i.e.
directories (`is_file() = False`) before files, then case-insensitive name
order. -/
def childLEr (a b : Entry) : Prop :=
  (entryIsFile a = false ∧ entryIsFile b = true) ∨
  (entryIsFile a = entryIsFile b ∧
    strLE (String.mk ((entryName a).data.map Char.toLower))
          (String.mk ((entryName b).data.map Char.toLower)))

instance : DecidableRel childLEr := fun a b => by
  unfold childLEr; infer_instance

instance : IsTotal Entry childLEr := by
  constructor
  intro a b
  rcases lexLEb_total ((entryName a).data.map Char.toLower) ((entryName b).data.map Char.toLower)
    with h | h
  · cases ha : entryIsFile a <;> cases hb : entryIsFile b <;>
      simp [childLEr, ha, hb, strLE, h]
  · cases ha : entryIsFile a <;> cases hb : entryIsFile b <;>
      simp [childLEr, ha, hb, strLE, h]

instance : IsTrans Entry childLEr := by
  constructor
  intro a b c hab hbc
  rcases hab with ⟨ha, hb⟩ | ⟨hab', h1⟩ <;> rcases hbc with ⟨hb', hc⟩ | ⟨hbc', h2⟩
  · rw [hb] at hb'; cases hb'
  · exact Or.inl ⟨ha, hbc' ▸ hb⟩
  · exact Or.inl ⟨hab' ▸ hb', hc⟩
  · exact Or.inr ⟨hab'.trans hbc', lexLEb_trans _ _ _ h1 h2⟩

/-- Children of a directory as the tree walker sees them: sorted with the
`(is_file, name.lower())` key (directories first) and with entries the
combined spec ignores filtered out (logic.py 100-120; the match is on the
slash-joined relative path without a trailing slash). -/
def filteredChildren (spec : List GitPattern) (pre : List String) (children : List Entry) :
    List Entry :=
  (List.insertionSort childLEr children).filter fun e => !matchFile spec (pre ++ [entryName e])

/-- Display name in the tree: directories get a trailing slash. -/
def displayName : Entry → String
  | .file n => n
  | .dir n _ => n ++ "/"

/-- `_build_tree_recursive` (logic.py 98-134) instrumented to return, for
each emitted line, also the relative component path of the node it belongs
to.  Non-last entries get the branch pointer, the last entry the corner
pointer, and only directories are descended into.  The recursion is driven
by a depth fuel (structural, so that the definition evaluates); `treePairs`
supplies sufficient fuel. -/
def treeFuel : Nat → List GitPattern → List String → String → List Entry →
    List (List String × String)
  | 0, _, _, _, _ => []
  | fuel + 1, spec, pre, pfx, children =>
    let filtered := filteredChildren spec pre children
    let ptrs := List.replicate (filtered.length - 1) "├── " ++ ["└── "]
    (filtered.zip ptrs).flatMap fun ep =>
      (pre ++ [entryName ep.1], pfx ++ ep.2 ++ displayName ep.1) ::
      (match ep.1 with
       | .file _ => []
       | .dir _ cs =>
         treeFuel fuel spec (pre ++ [entryName ep.1])
           (pfx ++ (if ep.2 = "├── " then "│   " else "    ")) cs)

mutual
/-- Depth of an entry. -/
def depthE : Entry → Nat
  | .file _ => 0
  | .dir _ cs => 1 + depthL cs
/-- Depth of a list of entries. -/
def depthL : List Entry → Nat
  | [] => 0
  | e :: es => max (depthE e) (depthL es)
end

/-- All (relative path, rendered line) pairs the tree walker emits below the
root line. -/
def treePairs (spec : List GitPattern) (root : List Entry) : List (List String × String) :=
  treeFuel (depthL root + 1) spec [] "" root

/-- Separator-join, Python's `sep.join(blocks)`. -/
def sepJoin (sep : String) : List String → String
  | [] => ""
  | [b] => b
  | b :: bs => b ++ sep ++ sepJoin sep bs

/-- `generate_tree` (logic.py 90-137): the root name line followed by the
emitted tree lines, joined with newlines. -/
def generate_tree (spec : List GitPattern) (rootName : String) (root : List Entry) : String :=
  sepJoin "\n" ((rootName ++ "/") :: (treePairs spec root).map Prod.snd)

/-- Every node the tree walker emits a line for passed its own ignore check:
its relative path is not matched by the combined spec. -/
theorem treeFuel_not_ignored (spec : List GitPattern) :
    ∀ fuel pre pfx children, ∀ pr ∈ treeFuel fuel spec pre pfx children,
      matchFile spec pr.1 = false := by
  intro fuel
  induction fuel with
  | zero => intro pre pfx children pr h; simp [treeFuel] at h
  | succ fuel ih =>
    intro pre pfx children pr h
    simp only [treeFuel, List.mem_flatMap] at h
    obtain ⟨ep, hep, hpr⟩ := h
    have hmem : ep.1 ∈ filteredChildren spec pre children := by
      have hz := List.of_mem_zip hep
      exact hz.1
    have hcond : matchFile spec (pre ++ [entryName ep.1]) = false := by
      unfold filteredChildren at hmem
      have := (List.mem_filter.mp hmem).2
      simpa using this
    rcases List.mem_cons.mp hpr with hhd | htl
    · rw [hhd]; exact hcond
    · cases hcase : ep.1 with
      | file n => rw [hcase] at htl; simp at htl
      | dir n cs =>
        rw [hcase] at htl
        exact ih _ _ cs pr htl

/-- The child order the spec's words describe for claim C2: files before
directories, then case-insensitive name order. -/
def specChildLEr (a b : Entry) : Prop :=
  (entryIsFile a = true ∧ entryIsFile b = false) ∨
  (entryIsFile a = entryIsFile b ∧
    strLE (String.mk ((entryName a).data.map Char.toLower))
          (String.mk ((entryName b).data.map Char.toLower)))

instance : DecidableRel specChildLEr := fun a b => by
  unfold specChildLEr; infer_instance

/-- The compiled form of the implicit rule `.git/`. -/
def gitDirPattern : GitPattern := ⟨".git/", false, true, false, [".git"]⟩

/-- C2 counterexample: on a directory holding the file `a.txt` and the
subdirectory `b`, the rendered child order puts the directory line first —
`sorted(…, key=lambda p: (p.is_file(), p.name.lower()))` orders `False`
(directories) before `True` (files) — so the children are not sorted with
files before directories as the claim states. -/
theorem C2_counterexample :
    treePairs [gitDirPattern] [Entry.file "a.txt", Entry.dir "b" []] =
      [(["b"], "├── b/"), (["a.txt"], "└── a.txt")] ∧
    (filteredChildren [gitDirPattern] [] [Entry.file "a.txt", Entry.dir "b" []]).map entryName
      = ["b", "a.txt"] ∧
    (filteredChildren [gitDirPattern] [] [Entry.file "a.txt", Entry.dir "b" []]).map entryIsFile
      = [false, true] ∧
    ¬ List.Sorted specChildLEr
        (filteredChildren [gitDirPattern] [] [Entry.file "a.txt", Entry.dir "b" []]) := by
  refine ⟨by decide, by decide, by decide, ?_⟩
  intro h
  have hflags : (filteredChildren [gitDirPattern] []
      [Entry.file "a.txt", Entry.dir "b" []]).map entryIsFile = [false, true] := by decide
  generalize hfc : filteredChildren [gitDirPattern] [] [Entry.file "a.txt", Entry.dir "b" []]
    = fc at h hflags
  match fc, hflags with
  | [x, y], hflags =>
    simp only [List.map_cons, List.map_nil, List.cons.injEq, and_true] at hflags
    have hrel : specChildLEr x y := List.rel_of_sorted_cons h y (List.mem_singleton.mpr rfl)
    rcases hrel with ⟨hx, hy⟩ | ⟨hxy, _⟩
    · rw [hflags.1] at hx; cases hx
    · rw [hflags.1, hflags.2] at hxy; cases hxy

/-- C2 (amended): in every rendered directory the child entries appear sorted
with all directories listed before all files, and within each of those two
groups in case-insensitive name order. -/
theorem C2_amended_children_order (spec : List GitPattern) (pre : List String)
    (children : List Entry) :
    List.Sorted childLEr (filteredChildren spec pre children) := by
  unfold filteredChildren
  exact (List.sorted_insertionSort childLEr children).filter _

theorem strDataInj {a b : String} (h : a.data = b.data) : a = b := String.ext h

theorem posixJoin_cons_cons (c d : String) (ds : List String) :
    posixJoin (c :: d :: ds) = c ++ "/" ++ posixJoin (d :: ds) := by
  simp [posixJoin]

theorem posixJoin_data_cons_cons (c d : String) (ds : List String) :
    (posixJoin (c :: d :: ds)).data = c.data ++ '/' :: (posixJoin (d :: ds)).data := by
  rw [posixJoin_cons_cons, String.data_append, String.data_append]
  have h : "/".data = ['/'] := rfl
  rw [h, List.append_assoc]
  rfl

theorem okName_not_slash {c : String} (h : okName c = true) : '/' ∉ c.data := by
  unfold okName at h
  simp only [Bool.and_eq_true, List.all_eq_true, bne_iff_ne] at h
  intro hm
  exact h.2 '/' hm rfl

theorem okName_ne_nil {c : String} (h : okName c = true) : c.data ≠ [] := by
  unfold okName at h
  simp only [Bool.and_eq_true, Bool.not_eq_true', List.isEmpty_eq_false] at h
  exact h.1

/-- Splitting a character list at an unambiguous slash: if neither side
before the slash contains a slash, the decomposition is unique. -/
theorem append_slash_inj : ∀ {a : List Char} {b r r' : List Char}, '/' ∉ a → '/' ∉ b →
    a ++ '/' :: r = b ++ '/' :: r' → a = b ∧ r = r' := by
  intro a
  induction a with
  | nil =>
    intro b r r' _ hb h
    cases b with
    | nil => simpa using h
    | cons x xs =>
      exfalso
      simp only [List.nil_append, List.cons_append, List.cons.injEq] at h
      apply hb
      rw [← h.1]
      exact List.mem_cons_self _ _
  | cons x xs ih =>
    intro b r r' ha hb h
    cases b with
    | nil =>
      exfalso
      simp only [List.cons_append, List.nil_append, List.cons.injEq] at h
      apply ha
      rw [h.1]
      exact List.mem_cons_self _ _
    | cons y ys =>
      simp only [List.cons_append, List.cons.injEq] at h
      obtain ⟨hxy, htail⟩ := h
      have ha' : '/' ∉ xs := fun hm => ha (List.mem_cons_of_mem _ hm)
      have hb' : '/' ∉ ys := fun hm => hb (List.mem_cons_of_mem _ hm)
      obtain ⟨h1, h2⟩ := ih ha' hb' htail
      exact ⟨by rw [hxy, h1], h2⟩

/-- On well-formed names (non-empty, slash-free), `posixJoin` is injective:
a POSIX path string determines its components. -/
theorem posixJoin_inj : ∀ {cs ds : List String},
    (∀ c ∈ cs, okName c = true) → (∀ d ∈ ds, okName d = true) →
    posixJoin cs = posixJoin ds → cs = ds := by
  intro cs
  induction cs with
  | nil =>
    intro ds _ hd h
    cases ds with
    | nil => rfl
    | cons d ds' =>
      exfalso
      cases ds' with
      | nil =>
        have hdata := congrArg String.data h
        simp only [posixJoin] at hdata
        exact okName_ne_nil (hd d (List.mem_cons_self _ _)) hdata.symm
      | cons d2 ds'' =>
        have hdata := congrArg String.data h
        rw [posixJoin_data_cons_cons] at hdata
        simp only [posixJoin] at hdata
        exact List.cons_ne_nil _ _ (List.append_eq_nil.mp hdata.symm).2
  | cons c cs' ih =>
    intro ds hc hd h
    cases cs' with
    | nil =>
      cases ds with
      | nil =>
        exfalso
        have hdata := congrArg String.data h
        simp only [posixJoin] at hdata
        exact okName_ne_nil (hc c (List.mem_cons_self _ _)) hdata
      | cons d ds' =>
        cases ds' with
        | nil =>
          have : c = d := by simpa [posixJoin] using h
          rw [this]
        | cons d2 ds'' =>
          exfalso
          have hdata := congrArg String.data h
          rw [posixJoin_data_cons_cons] at hdata
          simp only [posixJoin] at hdata
          apply okName_not_slash (hc c (List.mem_cons_self _ _))
          rw [hdata]
          exact List.mem_append_right _ (List.mem_cons_self _ _)
    | cons c2 cs'' =>
      cases ds with
      | nil =>
        exfalso
        have hdata := congrArg String.data h
        rw [posixJoin_data_cons_cons] at hdata
        simp only [posixJoin] at hdata
        exact List.cons_ne_nil _ _ (List.append_eq_nil.mp hdata).2
      | cons d ds' =>
        cases ds' with
        | nil =>
          exfalso
          have hdata := congrArg String.data h
          rw [posixJoin_data_cons_cons] at hdata
          simp only [posixJoin] at hdata
          apply okName_not_slash (hd d (List.mem_cons_self _ _))
          rw [← hdata]
          exact List.mem_append_right _ (List.mem_cons_self _ _)
        | cons d2 ds'' =>
          have hdata := congrArg String.data h
          rw [posixJoin_data_cons_cons, posixJoin_data_cons_cons] at hdata
          obtain ⟨h1, h2⟩ := append_slash_inj
            (okName_not_slash (hc c (List.mem_cons_self _ _)))
            (okName_not_slash (hd d (List.mem_cons_self _ _))) hdata
          have hcd : c = d := strDataInj h1
          have htail : posixJoin (c2 :: cs'') = posixJoin (d2 :: ds'') := strDataInj h2
          have hrest : c2 :: cs'' = d2 :: ds'' :=
            ih (fun x hx => hc x (List.mem_cons_of_mem _ hx))
               (fun x hx => hd x (List.mem_cons_of_mem _ hx)) htail
          rw [hcd, hrest]

/-- A POSIX path string of well-formed components that starts with `.git/`
must have `.git` as its first component and at least one more component. -/
theorem prefix_git {cs : List String} (hok : ∀ c ∈ cs, okName c = true)
    (h : ".git/".data <+: (posixJoin cs).data) :
    cs.head? = some ".git" ∧ 2 ≤ cs.length := by
  cases cs with
  | nil =>
    exfalso
    simp only [posixJoin] at h
    have : (".git/".data : List Char) = [] := List.prefix_nil.mp h
    simp at this
  | cons c cs' =>
    cases cs' with
    | nil =>
      exfalso
      obtain ⟨t, ht⟩ := h
      simp only [posixJoin] at ht
      apply okName_not_slash (hok c (List.mem_cons_self _ _))
      rw [← ht]
      exact List.mem_append_left _ (by decide)
    | cons c2 cs'' =>
      obtain ⟨t, ht⟩ := h
      rw [posixJoin_data_cons_cons] at ht
      have hsplit : (".git".data : List Char) ++ '/' :: t =
          c.data ++ '/' :: (posixJoin (c2 :: cs'')).data := by
        rw [← ht]; rfl
      obtain ⟨h1, _⟩ := append_slash_inj (by decide)
        (okName_not_slash (hok c (List.mem_cons_self _ _))) hsplit
      constructor
      · rw [show c = ".git" from (strDataInj h1).symm]; rfl
      · simp

/-- The compiled form of the rule `build/`. -/
def buildDirPattern : GitPattern := ⟨"build/", false, true, false, ["build"]⟩

/-- C4: for every well-formed root with the single rule `build/`, the Scanner
excludes the file `build/output/x.txt`, and the TreeRenderer never emits a
line for the node `build/output` (the excluded directory is not descended
into).  The first conjunct checks that `build/` compiles to the stated
pattern. -/
theorem C4_directory_pruning :
    fromLines ["build/"] = .ok [buildDirPattern] ∧
    ∀ root : List Entry, WFfs root →
      "build/output/x.txt" ∉ scan_and_filter_files [buildDirPattern] root ∧
      ∀ pr ∈ treePairs [buildDirPattern] root, pr.1 ≠ ["build", "output"] := by
  constructor
  · decide
  · intro root hwf
    constructor
    · intro hmem
      obtain ⟨cs, hcs, hfalse, hjoin⟩ := mem_scan_and_filter hmem
      have hok : ∀ c ∈ cs, okName c = true := hwf cs hcs
      have hceq : cs = ["build", "output", "x.txt"] :=
        posixJoin_inj hok (by decide) (by rw [hjoin]; decide)
      rw [hceq] at hfalse
      have hmatch : matchFile [buildDirPattern] ["build", "output", "x.txt"] = true := by decide
      rw [hmatch] at hfalse
      cases hfalse
    · intro pr hpr heq
      have hfalse := treeFuel_not_ignored [buildDirPattern] _ _ _ _ pr hpr
      rw [heq] at hfalse
      have hmatch : matchFile [buildDirPattern] ["build", "output"] = true := by decide
      rw [hmatch] at hfalse
      cases hfalse

/-- A concrete root containing `build/output/x.txt` for the C4 witness. -/
def exBuildFs : List Entry :=
  [Entry.dir "build" [Entry.dir "output" [Entry.file "x.txt"]], Entry.file "a.py"]

/-- Witness for C4 at a concrete root. -/
theorem C4_directory_pruning_witness :
    WFfs exBuildFs ∧
    ("build/output/x.txt" ∉ scan_and_filter_files [buildDirPattern] exBuildFs ∧
      ∀ pr ∈ treePairs [buildDirPattern] exBuildFs, pr.1 ≠ ["build", "output"]) :=
  ⟨by decide, C4_directory_pruning.2 exBuildFs (by decide)⟩

/-- State of one ignore file on disk as `parse_ignore_file` can encounter it:
absent, present but unreadable (`open` raises), or readable with its lines. -/
inductive IgnoreFileState where
  | missing
  | unreadable
  | readable (lines : List String)

/-- `parse_ignore_file` (logic.py 10-38): returns the compiled spec of the
named ignore file, or `none` when the file is missing, unreadable, blank, or
its compilation raises (the `except Exception` branch prints a warning and
leaves `spec = None`).  Lines are stripped and blank lines dropped before
compilation. -/
def parse_ignore_file : IgnoreFileState → Option (List GitPattern)
  | .missing => none
  | .unreadable => none
  | .readable lines =>
    let read_lines := (lines.map pyStrip).filter fun l => l ≠ ""
    if read_lines = [] then none
    else
      match fromLines read_lines with
      | .ok pats => some pats
      | .err _ => none

/-- `load_combined_ignore_spec` (logic.py 41-84): the pattern strings of the
parsed `.gitignore` and `.pagrignore` specs (an absent spec contributes
none), prefixed with the permanent `.git/` rule and recompiled into the
combined spec.  A compilation error here would propagate out of the function,
hence the `ParseOutcome` result. -/
def load_combined_ignore_spec (gi pg : IgnoreFileState) : ParseOutcome (List GitPattern) :=
  let giPats := ((parse_ignore_file gi).getD []).map GitPattern.raw
  let pgPats := ((parse_ignore_file pg).getD []).map GitPattern.raw
  fromLines (".git/" :: (giPats ++ pgPats))

/-- C9 counterexample: an ignore file whose first line is the malformed
pattern `!` (invalid in gitwildmatch — it compiles to no segments and raises
`GitWildMatchPatternError`) makes `parse_ignore_file` return `None`, so the
well-formed remaining line `*.log` contributes nothing; the claim's
best-effort parse of the remaining lines would have kept the `*.log` rule. -/
theorem C9_counterexample :
    parse_ignore_file (.readable ["!", "*.log"]) = none ∧
    fromLines ["*.log"] = .ok [starLogPat] := by
  constructor <;> decide

/-- C9 (amended): a malformed pattern line causes the whole ignore file to
contribute zero rules (with a warning), rather than a best-effort parse of
its remaining lines; a missing or unreadable ignore file likewise contributes
zero rules; in no case does construction raise (the model is total). -/
theorem C9_amended_degrade (lines : List String) (m : String)
    (h : fromLines ((lines.map pyStrip).filter fun l => l ≠ "") = .err m) :
    parse_ignore_file (.readable lines) = none ∧
    parse_ignore_file .missing = none ∧
    parse_ignore_file .unreadable = none := by
  refine ⟨?_, rfl, rfl⟩
  simp only [parse_ignore_file]
  split
  · rfl
  · rw [h]

/-- Witness for C9 (amended) on a concrete malformed ignore file. -/
theorem C9_amended_degrade_witness :
    fromLines (((["!", "*.log"]).map pyStrip).filter fun l => l ≠ "") = .err "!" ∧
    (parse_ignore_file (.readable ["!", "*.log"]) = none ∧
     parse_ignore_file .missing = none ∧
     parse_ignore_file .unreadable = none) :=
  ⟨by decide, C9_amended_degrade ["!", "*.log"] "!" (by decide)⟩

/-- A path strictly below a root-level `.git` directory. -/
def insideGit (cs : List String) : Prop := cs.head? = some ".git" ∧ 2 ≤ cs.length

instance (cs : List String) : Decidable (insideGit cs) := by
  unfold insideGit; infer_instance

/-- The permanent `.git/` rule matches every path strictly below `.git`. -/
theorem gitDirPattern_matches {cs : List String} (h1 : cs.head? = some ".git")
    (h2 : 2 ≤ cs.length) : patMatches gitDirPattern cs = true := by
  have hdef : patMatches gitDirPattern cs =
      (List.range cs.length).any fun i =>
        globMatch ".git".data ((cs.getD i "").data) && (!true || decide (i + 1 < cs.length)) :=
    rfl
  rw [hdef, List.any_eq_true]
  refine ⟨0, List.mem_range.mpr (by omega), ?_⟩
  cases cs with
  | nil => simp at h1
  | cons c t =>
    simp only [List.head?_cons, Option.some.injEq] at h1
    rw [List.getD_cons_zero, h1]
    simp only [Bool.and_eq_true, Bool.not_true, Bool.false_or, decide_eq_true_eq]
    refine ⟨by decide, ?_⟩
    simp only [List.length_cons] at h2 ⊢
    omega

/-- Once the verdict is "ignored", later rules keep it unless a negated rule
matches. -/
theorem foldl_verdict_stays_true (cs : List String) :
    ∀ ps : List GitPattern, (∀ p ∈ ps, p.negated = true → patMatches p cs = false) →
    List.foldl (fun verdict p => if patMatches p cs then !p.negated else verdict) true ps
      = true := by
  intro ps
  induction ps with
  | nil => intro _; rfl
  | cons p ps ih =>
    intro h
    simp only [List.foldl_cons]
    have hstep : (if patMatches p cs then !p.negated else true) = true := by
      cases hm : patMatches p cs with
      | false => simp
      | true =>
        cases hneg : p.negated with
        | false => simp [hm, hneg]
        | true => rw [h p (List.mem_cons_self _ _) hneg] at hm; cases hm
    rw [hstep]
    exact ih fun q hq => h q (List.mem_cons_of_mem _ hq)

/-- The combined spec produced by `load_combined_ignore_spec` always starts
with the compiled `.git/` rule. -/
theorem load_combined_head {gi pg : IgnoreFileState} {spec : List GitPattern}
    (h : load_combined_ignore_spec gi pg = .ok spec) :
    ∃ rest, spec = gitDirPattern :: rest := by
  have hparse : parseLine ".git/" = .ok (some gitDirPattern) := by decide
  unfold load_combined_ignore_spec at h
  rw [fromLines, hparse] at h
  cases hfl : fromLines ((((parse_ignore_file gi).getD []).map GitPattern.raw ++
      ((parse_ignore_file pg).getD []).map GitPattern.raw)) with
  | err m => rw [hfl] at h; cases h
  | ok ps =>
    rw [hfl] at h
    cases h
    exact ⟨ps, rfl⟩

/-- C6 counterexample: a `.gitignore` containing the (perfectly loadable)
rule `!.git/` overrides the prepended permanent `.git/` rule under
last-match-wins, so the Scanner result for a root holding `.git/config`
contains that path inside `.git/` — the claim fails for this root. -/
theorem C6_counterexample :
    load_combined_ignore_spec (.readable ["!.git/"]) .missing =
      .ok [gitDirPattern, ⟨"!.git/", true, true, false, [".git"]⟩] ∧
    scan_and_filter_files [gitDirPattern, ⟨"!.git/", true, true, false, [".git"]⟩]
      [Entry.dir ".git" [Entry.file "config"]] = [".git/config"] ∧
    (".git/".data <+: ".git/config".data) :=
  ⟨by decide, by decide, ⟨"config".data, by decide⟩⟩

/-- C6 (amended): for every root whose combined spec loads successfully and
contains no negated rule matching a path inside `.git/` (in particular any
root with no ignore files at all), the Scanner's result contains no path
inside `.git/` and the TreeRenderer emits no line for a node inside
`.git/`. -/
theorem C6_amended_git_always_ignored (gi pg : IgnoreFileState) (spec : List GitPattern)
    (root : List Entry)
    (hload : load_combined_ignore_spec gi pg = .ok spec)
    (hneg : ∀ p ∈ spec, p.negated = true → ∀ cs, insideGit cs → patMatches p cs = false)
    (hwf : WFfs root) :
    (∀ s ∈ scan_and_filter_files spec root, ¬ (".git/".data <+: s.data)) ∧
    (∀ pr ∈ treePairs spec root, ¬ insideGit pr.1) := by
  obtain ⟨rest, hshape⟩ := load_combined_head hload
  have hmatch : ∀ cs, insideGit cs → matchFile spec cs = true := by
    intro cs hin
    have hcons : matchFile (gitDirPattern :: rest) cs =
        List.foldl (fun verdict q => if patMatches q cs then !q.negated else verdict)
          (if patMatches gitDirPattern cs then !gitDirPattern.negated else false) rest := rfl
    have hg : patMatches gitDirPattern cs = true := gitDirPattern_matches hin.1 hin.2
    have hinit : (if patMatches gitDirPattern cs then !gitDirPattern.negated else false)
        = true := by rw [hg]; decide
    rw [hshape, hcons, hinit]
    exact foldl_verdict_stays_true cs rest fun p hp hn =>
      hneg p (hshape ▸ List.mem_cons_of_mem _ hp) hn cs hin
  constructor
  · intro s hs hpre
    obtain ⟨cs, hcs, hfalse, hjoin⟩ := mem_scan_and_filter hs
    rw [← hjoin] at hpre
    obtain ⟨hhead, hlen⟩ := prefix_git (hwf cs hcs) hpre
    rw [hmatch cs ⟨hhead, hlen⟩] at hfalse
    cases hfalse
  · intro pr hpr hin
    have hfalse := treeFuel_not_ignored spec _ _ _ _ pr hpr
    rw [hmatch pr.1 hin] at hfalse
    cases hfalse

/-- A concrete root with a `.git` directory for the C6 witness. -/
def exCleanFs : List Entry := [Entry.dir ".git" [Entry.file "config"], Entry.file "a.py"]

/-- Witness for C6 (amended) at a root with no ignore files. -/
theorem C6_amended_git_always_ignored_witness :
    load_combined_ignore_spec .missing .missing = .ok [gitDirPattern] ∧
    WFfs exCleanFs ∧
    ((∀ s ∈ scan_and_filter_files [gitDirPattern] exCleanFs, ¬ (".git/".data <+: s.data)) ∧
     (∀ pr ∈ treePairs [gitDirPattern] exCleanFs, ¬ insideGit pr.1)) :=
  ⟨by decide, by decide,
    C6_amended_git_always_ignored .missing .missing [gitDirPattern] exCleanFs (by decide)
      (fun p hp hneg => absurd hneg (by rw [List.mem_singleton.mp hp]; decide))
      (by decide)⟩

/-- What the filesystem does when `aggregate_codes` processes one path:
`notFile` models `full_path.is_file()` returning `False` (missing path or a
directory); `content` a successful permissive-decode read; `vanished` the
race in which `is_file()` succeeded but the read raised `FileNotFoundError`;
`permDenied` a `PermissionError`; `ioError` any other exception with its
message. -/
inductive FileStatus where
  | notFile
  | content (text : String)
  | vanished
  | permDenied
  | ioError (msg : String)
deriving DecidableEq

/-- Split a character list at its last dot, returning the parts before and
after it. -/
def lastDotSplit : List Char → Option (List Char × List Char)
  | [] => none
  | c :: cs =>
    match lastDotSplit cs with
    | some (b, a) => some (c :: b, a)
    | none => if c = '.' then some ([], cs) else none

/-- Python `Path.suffix` of a file name: the final dot and what follows it,
empty when the name has no dot, starts with its only dot, or ends with a
dot. -/
def pySuffix (nm : String) : String :=
  match lastDotSplit nm.data with
  | some (before, after) =>
    if before ≠ [] ∧ after ≠ [] then String.mk ('.' :: after) else ""
  | none => ""

/-- The fence language hint (logic.py 207-208): the path's suffix lowercased
without the dot, empty when there is no suffix. -/
def langHint (rp : List String) : String :=
  match (pySuffix ((rp.getLast?).getD "")).data with
  | [] => ""
  | _ :: rest => String.mk (rest.map Char.toLower)

/-- The block header line (logic.py 196). -/
def headerOf (rp : List String) : String := "--- File: " ++ posixJoin rp ++ " ---"

/-- The inline bracketed error notices of `aggregate_codes` (logic.py
214-226); the full path interpolated into the first two is `root_dir /
relative_path`. -/
def errNoticeStr (rootStr : String) (rp : List String) : FileStatus → String
  | .vanished =>
    "[Error: File disappeared since scanning: " ++ (rootStr ++ "/" ++ posixJoin rp) ++ "]"
  | .permDenied =>
    "[Error: Permission denied reading file: " ++ (rootStr ++ "/" ++ posixJoin rp) ++ "]"
  | .ioError m => "[Error reading file: " ++ m ++ "]"
  | _ => ""

/-- Whether a status is one of the read-failure outcomes that yield an error
block. -/
def isReadErr : FileStatus → Bool
  | .vanished => true
  | .permDenied => true
  | .ioError _ => true
  | _ => false

/-- The block `aggregate_codes` appends for one relative path (logic.py
195-228): `none` when the path is skipped because it is not a file, the
fenced content block on a successful read, and the header plus bracketed
error notice when the read fails. -/
def blockFor (rootStr : String) (fsys : List String → FileStatus) (rp : List String) :
    Option String :=
  match fsys rp with
  | .notFile => none
  | .content text =>
    some (headerOf rp ++ "\n\n" ++ "```" ++ langHint rp ++ "\n" ++ text ++ "\n" ++ "```")
  | st => some (headerOf rp ++ "\n\n" ++ errNoticeStr rootStr rp st)

/-- The emitted blocks labelled with the path each one belongs to. -/
def blockPairs (rootStr : String) (fsys : List String → FileStatus)
    (rps : List (List String)) : List (List String × String) :=
  rps.filterMap fun rp => (blockFor rootStr fsys rp).map fun b => (rp, b)

/-- The fixed visual separator (logic.py 193). -/
def blockSeparator : String := "\n\n" ++ String.mk (List.replicate 80 '=') ++ "\n\n"

/-- `aggregate_codes` (logic.py 187-231): the blocks of the given relative
paths, in order, joined with the separator. -/
def aggregate_codes (rootStr : String) (fsys : List String → FileStatus)
    (rps : List (List String)) : String :=
  sepJoin blockSeparator (rps.filterMap (blockFor rootStr fsys))

/-- The caller's choice in `run` (main.py 185-189): the placeholder text
replaces the Aggregator output only when the path list is empty. -/
def run_code_output (rootStr : String) (fsys : List String → FileStatus)
    (rps : List (List String)) : String :=
  if rps = [] then "[No code files to aggregate]" else aggregate_codes rootStr fsys rps

theorem filterMap_label_snd (f : List String → Option String) (rps : List (List String)) :
    ((rps.filterMap fun rp => (f rp).map fun b => (rp, b)).map Prod.snd)
      = rps.filterMap f := by
  induction rps with
  | nil => rfl
  | cons rp rps ih =>
    cases hb : f rp with
    | none => simp [List.filterMap_cons, hb, ih]
    | some b => simp [List.filterMap_cons, hb, ih]

/-- `aggregate_codes` is the separator-join of the labelled blocks. -/
theorem aggregate_eq_blockPairs (rootStr : String) (fsys : List String → FileStatus)
    (rps : List (List String)) :
    aggregate_codes rootStr fsys rps =
      sepJoin blockSeparator ((blockPairs rootStr fsys rps).map Prod.snd) := by
  unfold aggregate_codes blockPairs
  rw [filterMap_label_snd]

theorem head?_append_left {α : Type} {l₁ l₂ : List α} {a : α} (h : l₁.head? = some a) :
    (l₁ ++ l₂).head? = some a := by
  cases l₁ with
  | nil => cases h
  | cons x xs => simpa using h

/-- A filesystem view with one readable file and one path that is missing at
aggregation time, for the C3 counterexample. -/
def exAggFs : List String → FileStatus := fun rp =>
  if rp = ["good.py"] then .content "x" else .notFile

/-- C3 counterexample: with the listed paths `missing.txt` (not a file at
aggregation time — `full_path.is_file()` is false, so the loop `continue`s
with only a warning) and `good.py`, the output contains no block at all for
`missing.txt`: the whole output is the single `good.py` block, against the
claim that a header-plus-error-notice block is still produced. -/
theorem C3_counterexample :
    blockPairs "r" exAggFs [["missing.txt"], ["good.py"]] =
      [(["good.py"], "--- File: good.py ---\n\n```py\nx\n```")] ∧
    ["missing.txt"] ∉ (blockPairs "r" exAggFs [["missing.txt"], ["good.py"]]).map Prod.fst ∧
    aggregate_codes "r" exAggFs [["missing.txt"], ["good.py"]] =
      "--- File: good.py ---\n\n```py\nx\n```" := by
  refine ⟨by decide, by decide, by decide⟩

/-- C3 (amended): a listed path that is not a file at aggregation time is
skipped entirely (no block is produced for it); a listed file whose read
fails (disappeared between check and read, permission denied, or any other
I/O error) gets a block consisting of its header line and an inline
bracketed error notice; and blocks for all other listed files are still
produced. -/
theorem C3_amended_error_blocks (rootStr : String) (fsys : List String → FileStatus)
    (rps : List (List String)) (rp : List String) (h : rp ∈ rps) :
    (fsys rp = .notFile → rp ∉ (blockPairs rootStr fsys rps).map Prod.fst) ∧
    (isReadErr (fsys rp) = true →
      (rp, headerOf rp ++ "\n\n" ++ errNoticeStr rootStr rp (fsys rp))
        ∈ blockPairs rootStr fsys rps ∧
      (errNoticeStr rootStr rp (fsys rp)).data.head? = some '[' ∧
      (errNoticeStr rootStr rp (fsys rp)).data.getLast? = some ']') ∧
    (∀ rq ∈ rps, fsys rq ≠ .notFile → rq ∈ (blockPairs rootStr fsys rps).map Prod.fst) := by
  refine ⟨?_, ?_, ?_⟩
  · intro hnf hmem
    rw [List.mem_map] at hmem
    obtain ⟨pr, hpr, hfst⟩ := hmem
    unfold blockPairs at hpr
    rw [List.mem_filterMap] at hpr
    obtain ⟨rq, _, hopt⟩ := hpr
    cases hb : blockFor rootStr fsys rq with
    | none => rw [hb] at hopt; cases hopt
    | some b =>
      rw [hb] at hopt
      simp only [Option.map_some', Option.some.injEq] at hopt
      have hrq : rq = rp := by
        have hq := congrArg Prod.fst hopt
        rw [hfst] at hq
        exact hq
      rw [hrq] at hb
      rw [blockFor.eq_def, hnf] at hb
      exact Option.noConfusion hb
  · intro herr
    have hblock : blockFor rootStr fsys rp =
        some (headerOf rp ++ "\n\n" ++ errNoticeStr rootStr rp (fsys rp)) := by
      cases hst : fsys rp with
      | notFile => rw [hst] at herr; cases herr
      | content text => rw [hst] at herr; cases herr
      | vanished => rw [blockFor.eq_def, hst]
      | permDenied => rw [blockFor.eq_def, hst]
      | ioError m => rw [blockFor.eq_def, hst]
    refine ⟨?_, ?_, ?_⟩
    · unfold blockPairs
      rw [List.mem_filterMap]
      exact ⟨rp, h, by rw [hblock]; rfl⟩
    · cases hst : fsys rp with
      | notFile => rw [hst] at herr; cases herr
      | content text => rw [hst] at herr; cases herr
      | vanished =>
        simp only [errNoticeStr, String.data_append]
        have hh : ("[Error: File disappeared since scanning: ").data.head? = some '[' := by
          decide
        exact head?_append_left (head?_append_left hh)
      | permDenied =>
        simp only [errNoticeStr, String.data_append]
        have hh : ("[Error: Permission denied reading file: ").data.head? = some '[' := by
          decide
        exact head?_append_left (head?_append_left hh)
      | ioError m =>
        simp only [errNoticeStr, String.data_append]
        have hh : ("[Error reading file: ").data.head? = some '[' := by decide
        exact head?_append_left (head?_append_left hh)
    · cases hst : fsys rp with
      | notFile => rw [hst] at herr; cases herr
      | content text => rw [hst] at herr; cases herr
      | vanished =>
        simp only [errNoticeStr, String.data_append, List.getLast?_append]
        rfl
      | permDenied =>
        simp only [errNoticeStr, String.data_append, List.getLast?_append]
        rfl
      | ioError m =>
        simp only [errNoticeStr, String.data_append, List.getLast?_append]
        rfl
  · intro rq hrq hne
    have hblock : ∃ b, blockFor rootStr fsys rq = some b := by
      cases hst : fsys rq with
      | notFile => exact absurd hst hne
      | content text => exact ⟨_, by rw [blockFor.eq_def, hst]⟩
      | vanished => exact ⟨_, by rw [blockFor.eq_def, hst]⟩
      | permDenied => exact ⟨_, by rw [blockFor.eq_def, hst]⟩
      | ioError m => exact ⟨_, by rw [blockFor.eq_def, hst]⟩
    obtain ⟨b, hb⟩ := hblock
    rw [List.mem_map]
    refine ⟨(rq, b), ?_, rfl⟩
    unfold blockPairs
    rw [List.mem_filterMap]
    exact ⟨rq, hrq, by rw [hb]; rfl⟩

/-- A filesystem view with a permission-denied file, a readable file and a
missing path, for the C3 witness. -/
def exAggFs2 : List String → FileStatus := fun rp =>
  if rp = ["locked.py"] then .permDenied
  else if rp = ["a.py"] then .content "x" else .notFile

/-- Witness for C3 (amended) at a concrete path list. -/
theorem C3_amended_error_blocks_witness :
    ["locked.py"] ∈ [["locked.py"], ["a.py"], ["gone.txt"]] ∧
    ((exAggFs2 ["locked.py"] = .notFile →
        ["locked.py"] ∉ (blockPairs "r" exAggFs2
          [["locked.py"], ["a.py"], ["gone.txt"]]).map Prod.fst) ∧
     (isReadErr (exAggFs2 ["locked.py"]) = true →
        (["locked.py"], headerOf ["locked.py"] ++ "\n\n" ++
            errNoticeStr "r" ["locked.py"] (exAggFs2 ["locked.py"]))
          ∈ blockPairs "r" exAggFs2 [["locked.py"], ["a.py"], ["gone.txt"]] ∧
        (errNoticeStr "r" ["locked.py"] (exAggFs2 ["locked.py"])).data.head? = some '[' ∧
        (errNoticeStr "r" ["locked.py"] (exAggFs2 ["locked.py"])).data.getLast? = some ']') ∧
     (∀ rq ∈ [["locked.py"], ["a.py"], ["gone.txt"]], exAggFs2 rq ≠ .notFile →
        rq ∈ (blockPairs "r" exAggFs2 [["locked.py"], ["a.py"], ["gone.txt"]]).map Prod.fst)) :=
  ⟨by decide,
    C3_amended_error_blocks "r" exAggFs2 [["locked.py"], ["a.py"], ["gone.txt"]]
      ["locked.py"] (by decide)⟩

/-- The filesystem view holding just `hello.py` for the C7 round trip. -/
def fsHello : List String → FileStatus := fun rp =>
  if rp = ["hello.py"] then .content "print(1)" else .notFile

/-- C7: aggregating the single readable file `hello.py` with content
`print(1)` yields exactly the header line, the opening fence with hint `py`
(extension lowercased without the dot), the literal content and the closing
fence. -/
theorem C7_aggregator_round_trip :
    aggregate_codes "proj" fsHello [["hello.py"]] =
      "--- File: hello.py ---\n\n```py\nprint(1)\n```" := by decide

/-- C10: for the empty path list the Aggregator returns the empty string,
and it is the caller (`run`, main.py 185-189) that substitutes the
placeholder text. -/
theorem C10_empty_aggregate (rootStr : String) (fsys : List String → FileStatus) :
    aggregate_codes rootStr fsys [] = "" ∧
    run_code_output rootStr fsys [] = "[No code files to aggregate]" :=
  ⟨rfl, rfl⟩

mutual
/-- All entries (files and directories) in the subtree of one entry, as
(relative components, is-file flag) pairs — `Path.rglob('*')`. -/
def allEntriesE (pre : List String) : Entry → List (List String × Bool)
  | .file n => [(pre ++ [n], true)]
  | .dir n cs => (pre ++ [n], false) :: allEntriesL (pre ++ [n]) cs
/-- All entries under a list of entries. -/
def allEntriesL (pre : List String) : List Entry → List (List String × Bool)
  | [] => []
  | e :: es => allEntriesE pre e ++ allEntriesL pre es
end

/-- Split a pattern string on slashes into component globs. -/
def splitSlashStr (s : String) : List String := (splitSlash s.data).map String.mk

/-- `Path.rglob(pattern)` membership: the pattern's slash-separated parts
glob-match the trailing components of the candidate's relative path (rglob
prepends an implicit `**/`).  `**` segments inside the pattern are not
modelled (no claim uses them). -/
def rglobMatch (patParts : List String) (cs : List String) : Bool :=
  decide (patParts.length ≤ cs.length) &&
  ((cs.drop (cs.length - patParts.length)).zip patParts).all fun cp =>
    globMatch cp.2.data cp.1.data

/-- `(root / literal).is_file()` for the literal fallback of
`validate_paths`. -/
def isFileAt (root : List Entry) (cs : List String) : Bool :=
  (allEntriesL [] root).any fun pb => pb.2 && pb.1 == cs

/-- The candidate files one `codes` pattern produces in `validate_paths`
(main.py 50-67): all entries matched by `rglob`, restricted to files; when
the glob matches nothing, the pattern taken as a literal path if that is a
file. -/
def candidatesFor (root : List Entry) (pat : String) : List (List String) :=
  let parts := splitSlashStr pat
  let matched := (allEntriesL [] root).filter fun pb => rglobMatch parts pb.1
  if matched.isEmpty then
    if isFileAt root parts then [parts] else []
  else (matched.filter fun pb => pb.2).map Prod.fst

/-- The candidate set `validate_paths` accumulates (main.py 69-84): for each
pattern, its candidate files with the Matcher-ignored ones dropped. -/
def validate_paths_candidates (spec : List GitPattern) (root : List Entry)
    (pats : List String) : List (List String) :=
  pats.flatMap fun pat => (candidatesFor root pat).filter fun cs => !matchFile spec cs

/-- The final `codes` list of `validate_paths` (main.py 98-99): the candidate
set deduplicated and sorted. -/
def validate_paths_codes (spec : List GitPattern) (root : List Entry)
    (pats : List String) : List String :=
  List.insertionSort strLE ((validate_paths_candidates spec root pats).map posixJoin).dedup

/-- C8: every candidate file matched by a glob or literal `codes` pattern
that the Matcher marks as ignored is excluded from the resolved candidate
set (and hence from the resolved `codes` result built from it) — ignore
rules take precedence over explicit inclusion requests. -/
theorem C8_ignore_over_explicit (spec : List GitPattern) (root : List Entry)
    (pats : List String) (cs : List String) (hig : matchFile spec cs = true) :
    cs ∉ validate_paths_candidates spec root pats := by
  intro hmem
  unfold validate_paths_candidates at hmem
  rw [List.mem_flatMap] at hmem
  obtain ⟨pat, _, hmem2⟩ := hmem
  rw [List.mem_filter] at hmem2
  have hkeep := hmem2.2
  rw [hig] at hkeep
  simp at hkeep

/-- A concrete root with an ignored log file for the C8 witness. -/
def exResolveFs : List Entry := [Entry.file "a.log", Entry.file "b.txt"]

/-- Witness for C8: `a.log` is a glob candidate of `*.log`, is ignored by the
`*.log` rule, and is absent from the resolved candidate set. -/
theorem C8_ignore_over_explicit_witness :
    ["a.log"] ∈ candidatesFor exResolveFs "*.log" ∧
    matchFile [starLogPat] ["a.log"] = true ∧
    ["a.log"] ∉ validate_paths_candidates [starLogPat] exResolveFs ["*.log", "b.txt"] :=
  ⟨by decide, by decide,
    C8_ignore_over_explicit [starLogPat] exResolveFs ["*.log", "b.txt"] ["a.log"] (by decide)⟩
